import Mathlib

/-!
Shallow embedding of the reconciliation core of `seller.py` and `market.py`
(repository `seller-apis`): feed records, the quantity and price normalizers,
`create_stocks` / `create_prices` for both channels, the `divide` batch
partitioner, and the batch-submission wrappers, together with theorems about
the specification's claims.

HTTP transport, spreadsheet download and credential loading are external
collaborators and are not modelled; the functions below are translated from
the pure data-flow of the source.
-/

set_option maxRecDepth 10000

deriving instance DecidableEq for Except

/-- One row of the supplier feed, as consumed by `create_stocks` /
`create_prices`: `code` is `str(watch.get("Код"))` (the source coerces the
possibly-numeric cell to a string; here it is a string from the start),
`quantity` is `watch.get("Количество")` and `price` is `watch.get("Цена")`. -/
structure FeedRecord where
  code : String
  quantity : String
  price : String
deriving DecidableEq, Repr

/-- The one kind of exception the modelled code paths actually raise: Python's
built-in `ValueError`, coming from `int(...)` on an unparseable string and from
`range(...)` with a zero step.  (The specification's `FormatError` names the
`int` failure.) -/
inductive PyError where
  | valueError
deriving DecidableEq, Repr

/-- Value of a list of decimal digit characters, most significant first. -/
def digitsToNat (l : List Char) : Nat :=
  l.foldl (fun a c => 10 * a + (c.toNat - 48)) 0

/-- Python `int(s)` on a string: an optional minus sign followed by at least
one decimal digit parses to the signed value, anything else raises
`ValueError`.  (Python additionally tolerates surrounding whitespace, a
leading `+` and underscores between digits; no call site in this repository
relies on those forms, so they are not modelled.) -/
def pyInt (s : String) : Except PyError Int :=
  match s.toList with
  | '-' :: rest =>
    if rest ≠ [] ∧ rest.all Char.isDigit then .ok (-(digitsToNat rest : Int))
    else .error .valueError
  | l =>
    if l ≠ [] ∧ l.all Char.isDigit then .ok (digitsToNat l : Int)
    else .error .valueError

/-- The quantity normalization inlined in `seller.py` lines 253-259 and
`market.py` lines 174-180: the sentinel `">10"` means 100, the sentinel `"1"`
means 0, anything else goes through `int(...)`. -/
def normalizeCount (count : String) : Except PyError Int :=
  if count = ">10" then .ok 100
  else if count = "1" then .ok 0
  else pyInt count

/-- Python `str.split(".")` on the character list of a string: the segments
between the dots (always at least one segment, possibly empty). -/
def splitDot : List Char → List (List Char)
  | [] => [[]]
  | c :: cs =>
    if c = '.' then [] :: splitDot cs
    else
      match splitDot cs with
      | [] => [[c]]
      | t :: ts => (c :: t) :: ts

/-- `seller.py` `price_conversion` (line 320):
`re.sub("[^0-9]", "", price.split(".")[0])` — the segment before the first dot
(`split` never returns an empty list, so indexing `[0]` is modelled by
`headD`), with every character that is not an ASCII digit removed. -/
def price_conversion (price : String) : String :=
  String.mk (((splitDot price.toList).headD []).filter Char.isDigit)

/-- Price normalizer as worded in the specification (§4.2): take the substring
of the price text before the first `.` character, then strip every character
that is not an ASCII digit `0`-`9`.  Stated independently of
`price_conversion` so the two can be compared. -/
def priceNormSpec (price : String) : String :=
  String.mk ((price.toList.takeWhile (fun c => !(c == '.'))).filter
    (fun c => '0' ≤ c && c ≤ '9'))

namespace Seller

/-- Element shape appended by `seller.py` `create_stocks`:
`{"offer_id": ..., "stock": ...}`. -/
structure StockEntry where
  offer_id : String
  stock : Int
deriving DecidableEq, Repr

/-- First loop of `seller.py` `create_stocks` (lines 250-261): for each feed
row whose code is in the current `offer_ids`, normalize the quantity, emit an
entry and remove the code from `offer_ids` (`list.remove` deletes the first
occurrence, i.e. `List.erase`).  Returns the matched entries and the
`offer_ids` list as left after the loop. -/
def stocksLoop : List FeedRecord → List String →
    Except PyError (List StockEntry × List String)
  | [], ids => .ok ([], ids)
  | w :: ws, ids =>
    if w.code ∈ ids then
      match normalizeCount w.quantity with
      | .error e => .error e
      | .ok st =>
        match stocksLoop ws (ids.erase w.code) with
        | .error e => .error e
        | .ok (m, r) => .ok (⟨w.code, st⟩ :: m, r)
    else stocksLoop ws ids

/-- `seller.py` `create_stocks` (lines 231-265).  The second component of the
result is the `offer_ids` list as the caller observes it after the call: the
source mutates the argument list in place, so this is the loop's leftover
list, from which the zero-stock entries are also generated. -/
def create_stocks (watch_remnants : List FeedRecord) (offer_ids : List String) :
    Except PyError (List StockEntry × List String) :=
  match stocksLoop watch_remnants offer_ids with
  | .error e => .error e
  | .ok (m, r) => .ok (m ++ r.map (fun oid => ⟨oid, 0⟩), r)

/-- Element shape appended by `seller.py` `create_prices` (lines 289-295). -/
structure PriceEntry where
  auto_action_enabled : String
  currency_code : String
  offer_id : String
  old_price : String
  price : String
deriving DecidableEq, Repr

/-- `seller.py` `create_prices` (lines 268-297): one entry per feed row whose
code is in `offer_ids`; the price is `price_conversion` of the row's price
text, kept as a string.  `offer_ids` is not modified. -/
def create_prices (watch_remnants : List FeedRecord) (offer_ids : List String) :
    List PriceEntry :=
  watch_remnants.filterMap fun w =>
    if w.code ∈ offer_ids then
      some ⟨"UNKNOWN", "RUB", w.code, "0", price_conversion w.price⟩
    else none

/-- Successive slices `lst[i : i + n]` for `i = 0, n, 2n, ...` — the chunks
yielded by `seller.py` `divide` for a positive chunk size `n` (for `n = 0`
this definition degenerates to singleton chunks, but `divide` never calls it
with 0). -/
def chunks {α : Type} : List α → Nat → List (List α)
  | [], _ => []
  | x :: xs, n => (x :: xs.take (n - 1)) :: chunks (xs.drop (n - 1)) n
termination_by l _ => l.length
decreasing_by
  simp only [List.length_drop, List.length_cons]
  omega

/-- `seller.py` `divide` (lines 323-339): a generator over
`range(0, len(lst), n)` yielding `lst[i : i + n]`.  `range` raises
`ValueError` for step 0, and with start 0 and stop `len(lst) ≥ 0` it is empty
for any negative step, so `n = 0` raises once the generator is consumed,
`n < 0` silently yields no chunks, and `n > 0` yields the successive slices. -/
def divide {α : Type} (lst : List α) (n : Int) :
    Except PyError (List (List α)) :=
  if n = 0 then .error .valueError
  else if n < 0 then .ok []
  else .ok (chunks lst n.toNat)

/-- The stock batches submitted by `seller.py` `upload_stocks` (line 353) and
`main` (line 368): `divide(stocks, 100)`, one update call per chunk. -/
def uploadStocksCalls (stocks : List StockEntry) :
    Except PyError (List (List StockEntry)) :=
  divide stocks 100

/-- The price batches submitted by the standalone `seller.py` `upload_prices`
(line 345): `divide(prices, 1000)`. -/
def uploadPricesCalls (prices : List PriceEntry) :
    Except PyError (List (List PriceEntry)) :=
  divide prices 1000

/-- The price batches submitted by the whole-catalog path `seller.py` `main`
(line 372): `divide(prices, 900)`. -/
def mainPriceCalls (prices : List PriceEntry) :
    Except PyError (List (List PriceEntry)) :=
  divide prices 900

/-- Data flow of `seller.py` `main` lines 364-371: `create_stocks` and then
`create_prices` are called with the same `offer_ids` list object, which the
stock step has mutated in place. -/
def mainSyncPrices (watch_remnants : List FeedRecord) (offer_ids : List String) :
    Except PyError (List PriceEntry) :=
  match create_stocks watch_remnants offer_ids with
  | .error e => .error e
  | .ok (_, ids) => .ok (create_prices watch_remnants ids)

end Seller

namespace Market

/-- One element of the `items` list of a market stock entry
(`market.py` lines 185-191). -/
structure StockItem where
  count : Int
  type : String
  updatedAt : String
deriving DecidableEq, Repr

/-- Element shape appended by `market.py` `create_stocks`
(lines 181-193): `{"sku": ..., "warehouseId": ..., "items": [...]}`. -/
structure StockEntry where
  sku : String
  warehouseId : String
  items : List StockItem
deriving DecidableEq, Repr

/-- The stock entry `market.py` `create_stocks` builds for a code and a
resolved count: a single `items` element with type `"FIT"` and the run's
timestamp string. -/
def mkStockEntry (warehouse_id date oid : String) (st : Int) : StockEntry :=
  ⟨oid, warehouse_id, [⟨st, "FIT", date⟩]⟩

/-- First loop of `market.py` `create_stocks` (lines 172-194); identical
control flow to the seller loop, different entry shape.  `date` is the
timestamp string computed once at the top of the function. -/
def stocksLoop (warehouse_id date : String) : List FeedRecord → List String →
    Except PyError (List StockEntry × List String)
  | [], ids => .ok ([], ids)
  | w :: ws, ids =>
    if w.code ∈ ids then
      match normalizeCount w.quantity with
      | .error e => .error e
      | .ok st =>
        match stocksLoop warehouse_id date ws (ids.erase w.code) with
        | .error e => .error e
        | .ok (m, r) => .ok (mkStockEntry warehouse_id date w.code st :: m, r)
    else stocksLoop warehouse_id date ws ids

/-- `market.py` `create_stocks` (lines 150-210); as in the seller version the
second component is the caller's `offer_ids` list after the in-place
mutation. -/
def create_stocks (warehouse_id date : String) (watch_remnants : List FeedRecord)
    (offer_ids : List String) :
    Except PyError (List StockEntry × List String) :=
  match stocksLoop warehouse_id date watch_remnants offer_ids with
  | .error e => .error e
  | .ok (m, r) => .ok (m ++ r.map (fun oid => mkStockEntry warehouse_id date oid 0), r)

/-- The `price` sub-object of a market price entry (`market.py`
lines 237-242). -/
structure PriceValue where
  value : Int
  currencyId : String
deriving DecidableEq, Repr

/-- Element shape appended by `market.py` `create_prices` (lines 234-245). -/
structure PriceEntry where
  id : String
  price : PriceValue
deriving DecidableEq, Repr

/-- `market.py` `create_prices` (lines 213-247): one entry per feed row whose
code is in `offer_ids`; unlike the seller version the normalized price string
goes through `int(...)`, which raises `ValueError` when the string is empty. -/
def create_prices : List FeedRecord → List String →
    Except PyError (List PriceEntry)
  | [], _ => .ok []
  | w :: ws, ids =>
    if w.code ∈ ids then
      match pyInt (price_conversion w.price) with
      | .error e => .error e
      | .ok v =>
        match create_prices ws ids with
        | .error e => .error e
        | .ok ps => .ok (⟨w.code, ⟨v, "RUR"⟩⟩ :: ps)
    else create_prices ws ids

/-- The stock batches submitted by `market.py` `upload_stocks` (line 261) and
both branches of `main` (lines 283, 292): `divide(stocks, 2000)`. -/
def uploadStocksCalls (stocks : List StockEntry) :
    Except PyError (List (List StockEntry)) :=
  Seller.divide stocks 2000

/-- The price batches submitted by `market.py` `upload_prices` (line 253):
`divide(prices, 500)`. -/
def uploadPricesCalls (prices : List PriceEntry) :
    Except PyError (List (List PriceEntry)) :=
  Seller.divide prices 500

end Market

/-- The price text `"5'990.00 руб."` from the specification's examples,
spelled with `Char.ofNat 39` for the apostrophe. -/
def samplePrice : String :=
  String.mk ['5', Char.ofNat 39, '9', '9', '0', '.', '0', '0', ' ', 'р', 'у', 'б', '.']

/-- What claim C1 asserts of a successful seller `create_stocks` run on a
duplicate-free `offer_ids` list `S`: the output's offer codes are exactly `S`
(each once); the output is the feed-matched entries (codes in feed order — a
sublist of the feed's codes restricted to `S` — and exactly the codes common
to the feed and `S`) followed by zero-count entries for the channel-only
codes in `S`'s original order; and `rem` is the caller's list after the
call. -/
def Seller.StocksOutputSpec (F : List FeedRecord) (S : List String)
    (out : List Seller.StockEntry) (rem : List String) : Prop :=
  (out.map Seller.StockEntry.offer_id).Perm S ∧
  (out.map Seller.StockEntry.offer_id).Nodup ∧
  rem = S.filter (fun c => c ∉ F.map FeedRecord.code) ∧
  ∃ m, out = m ++ rem.map (fun oid => ⟨oid, 0⟩) ∧
    List.Sublist (m.map Seller.StockEntry.offer_id)
      ((F.map FeedRecord.code).filter (fun c => c ∈ S)) ∧
    (∀ c, c ∈ m.map Seller.StockEntry.offer_id ↔
      (c ∈ S ∧ c ∈ F.map FeedRecord.code))

/-- Market analogue of `Seller.StocksOutputSpec`, for
`market.py` `create_stocks` with a fixed warehouse id and timestamp. -/
def Market.StocksOutputSpec (warehouse_id date : String) (F : List FeedRecord)
    (S : List String) (out : List Market.StockEntry) (rem : List String) : Prop :=
  (out.map Market.StockEntry.sku).Perm S ∧
  (out.map Market.StockEntry.sku).Nodup ∧
  rem = S.filter (fun c => c ∉ F.map FeedRecord.code) ∧
  ∃ m, out = m ++ rem.map (fun oid => Market.mkStockEntry warehouse_id date oid 0) ∧
    List.Sublist (m.map Market.StockEntry.sku)
      ((F.map FeedRecord.code).filter (fun c => c ∈ S)) ∧
    (∀ c, c ∈ m.map Market.StockEntry.sku ↔
      (c ∈ S ∧ c ∈ F.map FeedRecord.code))

/-- A concrete batch of 2500 identical market stock entries, used to
instantiate the batch-sizing scenario. -/
def stocks2500 : List Market.StockEntry :=
  List.replicate 2500 (Market.mkStockEntry "w" "d" "s" 1)

/-! ### General helper lemmas -/

/-- A sublist of a duplicate-free list is determined by its membership
predicate: if `r <+ S`, `S` has no duplicates and `r`'s members are exactly
the members of `S` satisfying `p`, then `r` is `S.filter p`. -/
theorem eq_filter_of_sublist {α : Type} (p : α → Bool) {r S : List α}
    (h : List.Sublist r S) : S.Nodup → (∀ c, c ∈ r ↔ (c ∈ S ∧ p c = true)) →
    r = S.filter p := by
  induction h with
  | slnil => intro _ _; rfl
  | @cons l₁ l₂ a h ih =>
    intro hnd hiff
    have hanotin : a ∉ l₂ := (List.nodup_cons.mp hnd).1
    have hnd₂ : l₂.Nodup := (List.nodup_cons.mp hnd).2
    have hsub : ∀ c ∈ l₁, c ∈ l₂ := h.subset
    have hpa : p a = false := by
      cases hp : p a with
      | false => rfl
      | true =>
        have ha1 : a ∈ l₁ := (hiff a).mpr ⟨List.mem_cons_self a l₂, hp⟩
        exact absurd (hsub a ha1) hanotin
    rw [List.filter_cons_of_neg (by simp [hpa])]
    refine ih hnd₂ (fun c => ?_)
    constructor
    · intro hc
      rcases (hiff c).mp hc with ⟨hcs, hpc⟩
      refine ⟨?_, hpc⟩
      rcases List.mem_cons.mp hcs with rfl | h2
      · exact absurd (hsub c hc) hanotin
      · exact h2
    · intro hcp
      exact (hiff c).mpr ⟨List.mem_cons_of_mem a hcp.1, hcp.2⟩
  | @cons₂ l₁ l₂ a h ih =>
    intro hnd hiff
    have hanotin : a ∉ l₂ := (List.nodup_cons.mp hnd).1
    have hnd₂ : l₂.Nodup := (List.nodup_cons.mp hnd).2
    have hsub : ∀ c ∈ l₁, c ∈ l₂ := h.subset
    have hanotin₁ : a ∉ l₁ := fun hin => hanotin (hsub a hin)
    have hpa : p a = true := ((hiff a).mp (List.mem_cons_self a l₁)).2
    rw [List.filter_cons_of_pos hpa]
    congr 1
    refine ih hnd₂ (fun c => ?_)
    constructor
    · intro hc
      rcases (hiff c).mp (List.mem_cons_of_mem a hc) with ⟨hcs, hpc⟩
      refine ⟨?_, hpc⟩
      rcases List.mem_cons.mp hcs with rfl | h2
      · exact absurd hc hanotin₁
      · exact h2
    · intro hcp
      have hmem : c ∈ a :: l₁ :=
        (hiff c).mpr ⟨List.mem_cons_of_mem a hcp.1, hcp.2⟩
      rcases List.mem_cons.mp hmem with rfl | h2
      · exact absurd hcp.1 hanotin
      · exact h2

/-! ### Price normalizer -/

theorem splitDot_ne_nil : ∀ l : List Char, splitDot l ≠ [] := by
  intro l
  induction l with
  | nil => simp [splitDot]
  | cons c cs ih =>
    by_cases h : c = '.'
    · simp [splitDot, h]
    · rw [splitDot, if_neg h]
      cases heq : splitDot cs with
      | nil => exact absurd heq ih
      | cons t ts => simp

/-- The head of Python's `split(".")` is the prefix of the string before the
first dot. -/
theorem splitDot_headD (l : List Char) :
    (splitDot l).headD [] = l.takeWhile (fun c => !(c == '.')) := by
  induction l with
  | nil => rfl
  | cons c cs ih =>
    by_cases h : c = '.'
    · subst h
      simp [splitDot, List.takeWhile_cons]
    · rw [splitDot, if_neg h]
      cases heq : splitDot cs with
      | nil => exact absurd heq (splitDot_ne_nil cs)
      | cons t ts =>
        rw [heq] at ih
        simp only [List.headD_cons] at ih ⊢
        simp [List.takeWhile_cons, h, ← ih]

/-- `price_conversion` computes exactly the specification's §4.2 algorithm. -/
theorem price_conversion_eq_spec (price : String) :
    price_conversion price = priceNormSpec price := by
  rw [price_conversion, priceNormSpec, splitDot_headD]
  rfl

/-! ### Batch partitioner -/

theorem Seller.chunks_flatten {α : Type} (l : List α) (n : Nat) :
    (Seller.chunks l n).flatten = l := by
  induction l, n using Seller.chunks.induct with
  | case1 n => simp [Seller.chunks]
  | case2 x xs n ih =>
    rw [Seller.chunks]
    simp only [List.flatten_cons, ih]
    simp

theorem Seller.chunks_length_le {α : Type} (l : List α) (n : Nat) (hn : 1 ≤ n) :
    ∀ c ∈ Seller.chunks l n, c.length ≤ n := by
  induction l, n using Seller.chunks.induct with
  | case1 n => simp [Seller.chunks]
  | case2 x xs n ih =>
    rw [Seller.chunks]
    intro c hc
    rcases List.mem_cons.mp hc with h | h
    · subst h
      simp only [List.length_cons, List.length_take]
      omega
    · exact ih hn c h

theorem Seller.chunks_cons_eq {α : Type} (l : List α) (hl : l ≠ []) (n : Nat)
    (hn : 1 ≤ n) :
    Seller.chunks l n = l.take n :: Seller.chunks (l.drop n) n := by
  obtain ⟨x, xs, rfl⟩ := List.exists_cons_of_ne_nil hl
  obtain ⟨m, rfl⟩ : ∃ m, n = m + 1 := ⟨n - 1, by omega⟩
  rw [Seller.chunks]
  simp [List.take_succ_cons, List.drop_succ_cons]

/-- Splitting a list of exactly 2500 elements into chunks of 2000 gives
exactly the first 2000 and the remaining 500. -/
theorem Seller.chunks_2500 {α : Type} (l : List α) (h : l.length = 2500) :
    Seller.chunks l 2000 = [l.take 2000, l.drop 2000] := by
  have h1 : l ≠ [] := by
    intro e
    rw [e] at h
    simp at h
  rw [Seller.chunks_cons_eq l h1 2000 (by omega)]
  have h2 : (l.drop 2000).length = 500 := by simp [h]
  have h3 : l.drop 2000 ≠ [] := by
    intro e
    rw [e] at h2
    simp at h2
  rw [Seller.chunks_cons_eq _ h3 2000 (by omega)]
  have h4 : (l.drop 2000).drop 2000 = [] := by
    apply List.eq_nil_of_length_eq_zero
    simp [h]
  rw [h4]
  have h5 : (l.drop 2000).take 2000 = l.drop 2000 :=
    List.take_of_length_le (by omega)
  simp [Seller.chunks, h5]

/-- For a positive chunk size, `divide` succeeds and yields chunks of length
at most the chunk size whose concatenation is the input. -/
theorem Seller.divide_pos_spec {α : Type} (l : List α) (n : Int) (hn : 0 < n) :
    Seller.divide l n = .ok (Seller.chunks l n.toNat) ∧
    (Seller.chunks l n.toNat).flatten = l ∧
    (∀ c ∈ Seller.chunks l n.toNat, (c.length : Int) ≤ n) := by
  refine ⟨by rw [Seller.divide, if_neg (by omega), if_neg (by omega)], Seller.chunks_flatten l n.toNat, ?_⟩
  intro c hc
  have := Seller.chunks_length_le l n.toNat (by omega) c hc
  omega

/-! ### Reconciliation engine: stock side -/

/-- Invariant of the first `create_stocks` loop: on a duplicate-free working
list `S` it produces matched entries whose codes are duplicate-free, appear in
feed order restricted to `S`, and are exactly the codes of `S` that occur in
the feed; the leftover list is the sub-list of `S` of unmatched codes, none of
which occurs in the feed. -/
theorem Seller.stocksLoop_spec :
    ∀ (F : List FeedRecord) (S : List String), S.Nodup →
    ∀ m r, Seller.stocksLoop F S = .ok (m, r) →
      (m.map Seller.StockEntry.offer_id).Nodup ∧
      List.Sublist (m.map Seller.StockEntry.offer_id)
        ((F.map FeedRecord.code).filter (fun c => c ∈ S)) ∧
      List.Sublist r S ∧
      (∀ c, c ∈ r ↔ (c ∈ S ∧ c ∉ m.map Seller.StockEntry.offer_id)) ∧
      (∀ c ∈ r, c ∉ F.map FeedRecord.code) ∧
      (∀ c ∈ S, c ∈ F.map FeedRecord.code → c ∈ m.map Seller.StockEntry.offer_id) := by
  intro F
  induction F with
  | nil =>
    intro S hS m r h
    simp only [Seller.stocksLoop, Except.ok.injEq, Prod.mk.injEq] at h
    obtain ⟨hm, hr⟩ := h
    subst hm
    subst hr
    refine ⟨by simp, by simp, List.Sublist.refl S, fun c => by simp, ?_, ?_⟩ <;> simp
  | cons w ws ih =>
    intro S hS m r h
    simp only [Seller.stocksLoop] at h
    split at h
    case isTrue hw =>
      split at h
      case h_1 e heq => simp at h
      case h_2 st heq =>
        split at h
        case h_1 e heq2 => simp at h
        case h_2 m' r' heq2 =>
          simp only [Except.ok.injEq, Prod.mk.injEq] at h
          obtain ⟨hm, hr⟩ := h
          subst hm
          subst hr
          obtain ⟨inv1, inv2, inv3, inv4, inv5, inv6⟩ :=
            ih (S.erase w.code) (hS.erase w.code) m' r' heq2
          have hsubF : ∀ c ∈ m'.map Seller.StockEntry.offer_id,
              c ∈ (ws.map FeedRecord.code).filter (fun c => c ∈ S.erase w.code) :=
            fun c hc => inv2.subset hc
          have hnotin : w.code ∉ m'.map Seller.StockEntry.offer_id := by
            intro hmem
            have h1 := List.mem_filter.mp (hsubF _ hmem)
            have h2 : w.code ∈ S.erase w.code := by simpa using h1.2
            exact absurd ((hS.mem_erase_iff).mp h2).1 (by simp)
          refine ⟨?_, ?_, ?_, ?_, ?_, ?_⟩
          · rw [List.map_cons]
            exact List.nodup_cons.mpr ⟨hnotin, inv1⟩
          · rw [List.map_cons, List.map_cons,
              List.filter_cons_of_pos (by simpa using hw)]
            refine List.Sublist.cons₂ w.code ?_
            refine inv2.trans (List.monotone_filter_right _ (fun a ha => ?_))
            simp only [decide_eq_true_eq] at ha ⊢
            exact List.mem_of_mem_erase ha
          · exact inv3.trans (List.erase_sublist w.code S)
          · intro c
            rw [inv4 c, hS.mem_erase_iff, List.map_cons, List.mem_cons]
            tauto
          · intro c hc
            rw [List.map_cons, List.mem_cons]
            push_neg
            have hcE := ((inv4 c).mp hc).1
            exact ⟨((hS.mem_erase_iff).mp hcE).1, inv5 c hc⟩
          · intro c hcS hcF
            rw [List.map_cons, List.mem_cons] at hcF
            rw [List.map_cons, List.mem_cons]
            by_cases hce : c = w.code
            · exact Or.inl hce
            · rcases hcF with hcF | hcF
              · exact absurd hcF hce
              · exact Or.inr (inv6 c ((hS.mem_erase_iff).mpr ⟨hce, hcS⟩) hcF)
    case isFalse hw =>
      obtain ⟨inv1, inv2, inv3, inv4, inv5, inv6⟩ := ih S hS m r h
      refine ⟨inv1, ?_, inv3, inv4, ?_, ?_⟩
      · rw [List.map_cons, List.filter_cons_of_neg (by simpa using hw)]
        exact inv2
      · intro c hc
        rw [List.map_cons, List.mem_cons]
        push_neg
        refine ⟨?_, inv5 c hc⟩
        intro hce
        subst hce
        exact hw ((inv4 _).mp hc).1
      · intro c hcS hcF
        rw [List.map_cons, List.mem_cons] at hcF
        rcases hcF with hcF | hcF
        · subst hcF
          exact absurd hcS hw
        · exact inv6 c hcS hcF

/-- A successful seller `create_stocks` run on a duplicate-free `offer_ids`
list satisfies claim C1's description of the output. -/
theorem Seller.create_stocks_ok (F : List FeedRecord) (S : List String)
    (hS : S.Nodup) (out : List Seller.StockEntry) (rem : List String)
    (h : Seller.create_stocks F S = .ok (out, rem)) :
    Seller.StocksOutputSpec F S out rem := by
  rw [Seller.create_stocks] at h
  split at h
  case h_1 e heq => simp at h
  case h_2 m' r' heq =>
    simp only [Except.ok.injEq, Prod.mk.injEq] at h
    obtain ⟨hout, hrem⟩ := h
    subst hout
    subst hrem
    obtain ⟨inv1, inv2, inv3, inv4, inv5, inv6⟩ :=
      Seller.stocksLoop_spec F S hS m' r' heq
    have hmemF : ∀ c ∈ m'.map Seller.StockEntry.offer_id,
        c ∈ S ∧ c ∈ F.map FeedRecord.code := by
      intro c hc
      have h1 := List.mem_filter.mp (inv2.subset hc)
      exact ⟨by simpa using h1.2, h1.1⟩
    have hiffm : ∀ c, c ∈ m'.map Seller.StockEntry.offer_id ↔
        (c ∈ S ∧ c ∈ F.map FeedRecord.code) := by
      intro c
      exact ⟨hmemF c, fun hc => inv6 c hc.1 hc.2⟩
    have hrfilter : r' = S.filter (fun c => c ∉ F.map FeedRecord.code) := by
      refine eq_filter_of_sublist _ inv3 hS (fun c => ?_)
      constructor
      · intro hc
        exact ⟨((inv4 c).mp hc).1, by simpa using inv5 c hc⟩
      · intro hc
        refine (inv4 c).mpr ⟨hc.1, fun hmem => ?_⟩
        have : c ∈ F.map FeedRecord.code := (hmemF c hmem).2
        simp only [decide_eq_true_eq] at hc
        exact hc.2 this
    have hperm1 : (m'.map Seller.StockEntry.offer_id).Perm
        (S.filter (fun c => c ∈ F.map FeedRecord.code)) := by
      refine (List.perm_ext_iff_of_nodup inv1 (hS.filter _)).mpr (fun c => ?_)
      rw [hiffm c, List.mem_filter]
      simp
    have hcodes : ((m' ++ r'.map fun oid => (⟨oid, 0⟩ : Seller.StockEntry)).map
        Seller.StockEntry.offer_id) = m'.map Seller.StockEntry.offer_id ++ r' := by
      rw [List.map_append, List.map_map]
      exact congrArg _ (List.map_id r')
    have hperm : ((m' ++ r'.map fun oid => (⟨oid, 0⟩ : Seller.StockEntry)).map
        Seller.StockEntry.offer_id).Perm S := by
      rw [hcodes, hrfilter]
      have hfe : (fun c => (decide (c ∉ F.map FeedRecord.code))) =
          (fun c => !(decide (c ∈ F.map FeedRecord.code))) := by
        funext c
        rw [← decide_not]
      rw [hfe]
      exact (hperm1.append_right _).trans
        (List.filter_append_perm (fun c => c ∈ F.map FeedRecord.code) S)
    refine ⟨hperm, (hperm.nodup_iff).mpr hS, hrfilter, m', by rw [hrfilter], inv2, hiffm⟩

/-- The market stock loop is the seller stock loop with each matched entry
repackaged into the market schema. -/
theorem Market.stocksLoop_eq (warehouse_id date : String) :
    ∀ (F : List FeedRecord) (S : List String),
    Market.stocksLoop warehouse_id date F S =
      Except.map
        (fun p => (p.1.map
          (fun e => Market.mkStockEntry warehouse_id date e.offer_id e.stock), p.2))
        (Seller.stocksLoop F S) := by
  intro F
  induction F with
  | nil => intro S; rfl
  | cons w ws ih =>
    intro S
    rw [Market.stocksLoop, Seller.stocksLoop]
    by_cases hw : w.code ∈ S
    · rw [if_pos hw, if_pos hw]
      cases hq : normalizeCount w.quantity with
      | error e => simp [hq, Except.map]
      | ok st =>
        simp only [hq]
        rw [ih (S.erase w.code)]
        cases hrec : Seller.stocksLoop ws (S.erase w.code) with
        | error e => simp [Except.map]
        | ok p => simp [Except.map]
    · rw [if_neg hw, if_neg hw]
      exact ih S

/-- The market `create_stocks` is the seller `create_stocks` with every entry
repackaged into the market schema; in particular the two leave the caller's
`offer_ids` list in the same state. -/
theorem Market.create_stocks_eq (warehouse_id date : String)
    (F : List FeedRecord) (S : List String) :
    Market.create_stocks warehouse_id date F S =
      Except.map
        (fun p => (p.1.map
          (fun e => Market.mkStockEntry warehouse_id date e.offer_id e.stock), p.2))
        (Seller.create_stocks F S) := by
  rw [Market.create_stocks, Seller.create_stocks, Market.stocksLoop_eq]
  cases Seller.stocksLoop F S with
  | error e => rfl
  | ok p =>
    obtain ⟨m, r⟩ := p
    simp [Except.map, List.map_append, List.map_map]

/-- A successful market `create_stocks` run on a duplicate-free `offer_ids`
list satisfies claim C1's description of the output. -/
theorem Market.stocks_result_ok (warehouse_id date : String)
    (F : List FeedRecord) (S : List String) (hS : S.Nodup)
    (out : List Market.StockEntry) (rem : List String)
    (h : Market.create_stocks warehouse_id date F S = .ok (out, rem)) :
    Market.StocksOutputSpec warehouse_id date F S out rem := by
  rw [Market.create_stocks_eq] at h
  cases hsell : Seller.create_stocks F S with
  | error e =>
    rw [hsell] at h
    simp [Except.map] at h
  | ok p =>
    obtain ⟨out', rem'⟩ := p
    rw [hsell] at h
    simp only [Except.map, Except.ok.injEq, Prod.mk.injEq] at h
    obtain ⟨hout, hrem⟩ := h
    subst hrem
    subst hout
    obtain ⟨s1, s2, s3, m', hm1, hm2, hm3⟩ :=
      Seller.create_stocks_ok F S hS out' rem' hsell
    have hskus : (out'.map (fun e =>
        Market.mkStockEntry warehouse_id date e.offer_id e.stock)).map
        Market.StockEntry.sku = out'.map Seller.StockEntry.offer_id := by
      rw [List.map_map]
      rfl
    refine ⟨by rw [hskus]; exact s1, by rw [hskus]; exact s2, s3,
      m'.map (fun e => Market.mkStockEntry warehouse_id date e.offer_id e.stock),
      ?_, ?_, ?_⟩
    · rw [hm1, List.map_append, List.map_map]
      rfl
    · have hsk2 : (m'.map (fun e =>
          Market.mkStockEntry warehouse_id date e.offer_id e.stock)).map
          Market.StockEntry.sku = m'.map Seller.StockEntry.offer_id := by
        rw [List.map_map]
        rfl
      rw [hsk2]
      exact hm2
    · intro c
      have hsk2 : (m'.map (fun e =>
          Market.mkStockEntry warehouse_id date e.offer_id e.stock)).map
          Market.StockEntry.sku = m'.map Seller.StockEntry.offer_id := by
        rw [List.map_map]
        rfl
      rw [hsk2]
      exact hm3 c

/-! ### Reconciliation engine: price side -/

/-- The seller `create_prices` output lists, in feed order, exactly the feed
codes that are registered on the channel. -/
theorem Seller.create_prices_codes (F : List FeedRecord) (S : List String) :
    (Seller.create_prices F S).map Seller.PriceEntry.offer_id =
      (F.map FeedRecord.code).filter (fun c => c ∈ S) := by
  induction F with
  | nil => rfl
  | cons w ws ih =>
    rw [Seller.create_prices, List.filterMap_cons]
    by_cases hw : w.code ∈ S
    · rw [if_pos hw, List.map_cons, List.map_cons,
        List.filter_cons_of_pos (by simpa using hw)]
      rw [Seller.create_prices] at ih
      rw [ih]
    · rw [if_neg hw, List.map_cons,
        List.filter_cons_of_neg (by simpa using hw)]
      rw [Seller.create_prices] at ih
      rw [ih]

/-- Every feed row whose code is registered on the channel contributes its
entry (with the normalized price string, whatever it is) to the seller
`create_prices` output. -/
theorem Seller.create_prices_mem (F : List FeedRecord) (S : List String)
    (w : FeedRecord) (hw : w ∈ F) (hin : w.code ∈ S) :
    (⟨"UNKNOWN", "RUB", w.code, "0", price_conversion w.price⟩ :
      Seller.PriceEntry) ∈ Seller.create_prices F S := by
  rw [Seller.create_prices]
  refine List.mem_filterMap.mpr ⟨w, hw, ?_⟩
  rw [if_pos hin]

/-- If no feed code is registered on the channel, the seller `create_prices`
output is empty. -/
theorem Seller.create_prices_nil (F : List FeedRecord) (S : List String)
    (h : ∀ w ∈ F, w.code ∉ S) : Seller.create_prices F S = [] := by
  rw [Seller.create_prices]
  refine List.filterMap_eq_nil_iff.mpr (fun w hw => ?_)
  rw [if_neg (h w hw)]

/-- A successful market `create_prices` run lists, in feed order, exactly the
feed codes that are registered on the channel. -/
theorem Market.prices_codes (F : List FeedRecord) (S : List String)
    (ps : List Market.PriceEntry) (h : Market.create_prices F S = .ok ps) :
    ps.map Market.PriceEntry.id = (F.map FeedRecord.code).filter (fun c => c ∈ S) := by
  induction F generalizing ps with
  | nil =>
    simp only [Market.create_prices, Except.ok.injEq] at h
    subst h
    rfl
  | cons w ws ih =>
    simp only [Market.create_prices] at h
    split at h
    case isTrue hw =>
      split at h
      case h_1 e heq => simp at h
      case h_2 v heq =>
        split at h
        case h_1 e heq2 => simp at h
        case h_2 ps' heq2 =>
          simp only [Except.ok.injEq] at h
          subst h
          rw [List.map_cons, List.map_cons,
            List.filter_cons_of_pos (by simpa using hw), ih ps' heq2]
    case isFalse hw =>
      rw [List.map_cons, List.filter_cons_of_neg (by simpa using hw)]
      exact ih ps h

/-- If some feed row is registered on the channel but its normalized price
string is empty, the market `create_prices` raises (the `int(...)` coercion
fails on the first such row it reaches, or an earlier row fails first —
either way the result is the `ValueError`). -/
theorem Market.create_prices_error (F : List FeedRecord) (S : List String)
    (w : FeedRecord) (hw : w ∈ F) (hin : w.code ∈ S)
    (hempty : price_conversion w.price = "") :
    Market.create_prices F S = .error .valueError := by
  induction F with
  | nil => cases hw
  | cons w0 ws ih =>
    rw [Market.create_prices]
    rcases List.mem_cons.mp hw with rfl | hwtail
    · rw [if_pos hin, hempty]
      rfl
    · by_cases hw0 : w0.code ∈ S
      · rw [if_pos hw0]
        cases hq : pyInt (price_conversion w0.price) with
        | error e =>
          cases e
          rfl
        | ok v =>
          rw [ih hwtail]
      · rw [if_neg hw0]
        exact ih hwtail

/-! ### Claim theorems -/

/-- C1: for every feed and every duplicate-free offer-identifier list, a
successful `create_stocks` run — on either channel — produces exactly one
stock entry per registered code and none for any other code (count 0 for
codes absent from the feed), ordered with the feed-matched entries first in
feed order and then the zero-count entries for the channel-only codes in the
channel's original listing order. -/
theorem claim_C1 (F : List FeedRecord) (S : List String) (hS : S.Nodup) :
    (∀ out rem, Seller.create_stocks F S = .ok (out, rem) →
      Seller.StocksOutputSpec F S out rem) ∧
    (∀ warehouse_id date out rem,
      Market.create_stocks warehouse_id date F S = .ok (out, rem) →
      Market.StocksOutputSpec warehouse_id date F S out rem) :=
  ⟨fun out rem h => Seller.create_stocks_ok F S hS out rem h,
   fun warehouse_id date out rem h =>
     Market.stocks_result_ok warehouse_id date F S hS out rem h⟩

/-- Witness for C1 at the specification's §8 end-to-end scenario. -/
theorem claim_C1_witness :
    Seller.StocksOutputSpec
      [⟨"123", ">10", "1000.00 p."⟩, ⟨"456", "1", "2000.00 p."⟩]
      ["123", "456", "789"]
      [⟨"123", 100⟩, ⟨"456", 0⟩, ⟨"789", 0⟩] ["789"] ∧
    Market.StocksOutputSpec "wh1" "d1"
      [⟨"123", ">10", "1000.00 p."⟩, ⟨"456", "1", "2000.00 p."⟩]
      ["123", "456", "789"]
      [⟨"123", "wh1", [⟨100, "FIT", "d1"⟩]⟩, ⟨"456", "wh1", [⟨0, "FIT", "d1"⟩]⟩,
        ⟨"789", "wh1", [⟨0, "FIT", "d1"⟩]⟩] ["789"] :=
  ⟨(claim_C1 _ _ (by decide)).1 _ _ (by decide),
   (claim_C1 _ _ (by decide)).2 "wh1" "d1" _ _ (by decide)⟩

/-- C2 counterexample: `create_stocks` does mutate the caller's
offer-identifier list — after a run in which the single feed code matches the
single registered code, the caller's list is empty, not the original
one-element list. -/
theorem claim_C2_counterexample :
    Seller.create_stocks [⟨"11", "5", "9.9"⟩] ["11"] = .ok ([⟨"11", 5⟩], []) ∧
    ([] : List String) ≠ ["11"] := by
  constructor
  · decide
  · decide

/-- C2 (amended): `create_stocks` mutates the caller's offer-identifier list:
after a successful run on a duplicate-free list, the caller's list equals the
original list restricted, in its original order, to the codes that occur
nowhere in the feed; it equals the original list only when no feed code was
registered. -/
theorem claim_C2 (F : List FeedRecord) (S : List String) (hS : S.Nodup) :
    (∀ out rem, Seller.create_stocks F S = .ok (out, rem) →
      rem = S.filter (fun c => c ∉ F.map FeedRecord.code)) ∧
    (∀ warehouse_id date out rem,
      Market.create_stocks warehouse_id date F S = .ok (out, rem) →
      rem = S.filter (fun c => c ∉ F.map FeedRecord.code)) :=
  ⟨fun out rem h => (Seller.create_stocks_ok F S hS out rem h).2.2.1,
   fun warehouse_id date out rem h =>
     (Market.stocks_result_ok warehouse_id date F S hS out rem h).2.2.1⟩

/-- Witness for C2. -/
theorem claim_C2_witness :
    (["c"] : List String) =
      (["b", "c"] : List String).filter
        (fun c => c ∉ ([⟨"a", "3", "p"⟩, ⟨"b", "4", "q"⟩] :
          List FeedRecord).map FeedRecord.code) :=
  (claim_C2 [⟨"a", "3", "p"⟩, ⟨"b", "4", "q"⟩] ["b", "c"] (by decide)).1
    [⟨"b", 4⟩, ⟨"c", 0⟩] ["c"] (by decide)

/-- C3: in the seller whole-catalog path, running `create_stocks` and then
`create_prices` on the same (mutated) `offer_ids` list yields an empty price
list, for every feed and every duplicate-free starting list. -/
theorem claim_C3 (F : List FeedRecord) (S : List String) (hS : S.Nodup) :
    ∀ ps, Seller.mainSyncPrices F S = .ok ps → ps = [] := by
  intro ps h
  rw [Seller.mainSyncPrices] at h
  split at h
  case h_1 e heq => simp at h
  case h_2 out ids heq =>
    have hspec := Seller.create_stocks_ok F S hS _ _ heq
    have hids : ids = S.filter (fun c => c ∉ F.map FeedRecord.code) :=
      hspec.2.2.1
    have hnil : Seller.create_prices F ids = [] := by
      refine Seller.create_prices_nil F ids (fun w hw hmem => ?_)
      rw [hids] at hmem
      have hdec := (List.mem_filter.mp hmem).2
      simp only [decide_eq_true_eq] at hdec
      exact hdec (List.mem_map_of_mem FeedRecord.code hw)
    rw [hnil] at h
    simp only [Except.ok.injEq] at h
    exact h.symm

/-- Witness for C3. -/
theorem claim_C3_witness :
    Seller.mainSyncPrices [⟨"a", "5", "7.0"⟩] ["a", "b"] = .ok [] ∧
    ([] : List Seller.PriceEntry) = [] :=
  ⟨by decide, claim_C3 [⟨"a", "5", "7.0"⟩] ["a", "b"] (by decide) [] (by decide)⟩

/-- C4: `create_prices` — on either channel — contains an entry for a code
exactly when the code occurs both as a feed code and in the offer-identifier
collection; channel-only codes produce no entry, and entries appear in feed
order (the output's codes are the feed's code sequence filtered to the
registered codes). -/
theorem claim_C4 (F : List FeedRecord) (S : List String) :
    ((Seller.create_prices F S).map Seller.PriceEntry.offer_id =
      (F.map FeedRecord.code).filter (fun c => c ∈ S)) ∧
    (∀ c, (∃ e ∈ Seller.create_prices F S, e.offer_id = c) ↔
      (c ∈ F.map FeedRecord.code ∧ c ∈ S)) ∧
    (∀ ps, Market.create_prices F S = .ok ps →
      ps.map Market.PriceEntry.id =
        (F.map FeedRecord.code).filter (fun c => c ∈ S) ∧
      ∀ c, (∃ e ∈ ps, e.id = c) ↔ (c ∈ F.map FeedRecord.code ∧ c ∈ S)) := by
  refine ⟨Seller.create_prices_codes F S, fun c => ?_, fun ps hps =>
    ⟨Market.prices_codes F S ps hps, fun c => ?_⟩⟩
  · constructor
    · rintro ⟨e, he, rfl⟩
      have hm : e.offer_id ∈
          (Seller.create_prices F S).map Seller.PriceEntry.offer_id :=
        List.mem_map_of_mem _ he
      rw [Seller.create_prices_codes F S, List.mem_filter] at hm
      exact ⟨hm.1, by simpa using hm.2⟩
    · intro hc
      have hm : c ∈ (Seller.create_prices F S).map Seller.PriceEntry.offer_id := by
        rw [Seller.create_prices_codes F S, List.mem_filter]
        exact ⟨hc.1, by simpa using hc.2⟩
      obtain ⟨e, he, hec⟩ := List.mem_map.mp hm
      exact ⟨e, he, hec⟩
  · constructor
    · rintro ⟨e, he, rfl⟩
      have hm : e.id ∈ ps.map Market.PriceEntry.id := List.mem_map_of_mem _ he
      rw [Market.prices_codes F S ps hps, List.mem_filter] at hm
      exact ⟨hm.1, by simpa using hm.2⟩
    · intro hc
      have hm : c ∈ ps.map Market.PriceEntry.id := by
        rw [Market.prices_codes F S ps hps, List.mem_filter]
        exact ⟨hc.1, by simpa using hc.2⟩
      obtain ⟨e, he, hec⟩ := List.mem_map.mp hm
      exact ⟨e, he, hec⟩

/-- Witness for C4's market conjunct. -/
theorem claim_C4_witness :
    ([(⟨"a", ⟨5, "RUR"⟩⟩ : Market.PriceEntry)]).map Market.PriceEntry.id =
      (([⟨"a", "1", "5.0"⟩, ⟨"z", "1", "6.0"⟩] : List FeedRecord).map
        FeedRecord.code).filter (fun c => c ∈ ["a", "b"]) :=
  ((claim_C4 [⟨"a", "1", "5.0"⟩, ⟨"z", "1", "6.0"⟩] ["a", "b"]).2.2
    [⟨"a", ⟨5, "RUR"⟩⟩] (by decide)).1

/-- C5: the quantity normalization maps the sentinel `">10"` to 100 and the
sentinel `"1"` to 0, maps any other string that `int(...)` accepts to its
parsed value, and fails (Python `ValueError`, the specification's
`FormatError`) on any other string such as `"abc"`. -/
theorem claim_C5 :
    normalizeCount ">10" = .ok 100 ∧
    normalizeCount "1" = .ok 0 ∧
    normalizeCount "7" = .ok 7 ∧
    normalizeCount "abc" = .error .valueError ∧
    (∀ s v, pyInt s = .ok v → s ≠ ">10" → s ≠ "1" →
      normalizeCount s = .ok v) ∧
    (∀ s, pyInt s = .error .valueError → s ≠ ">10" → s ≠ "1" →
      normalizeCount s = .error .valueError) := by
  refine ⟨by decide, by decide, by decide, by decide, ?_, ?_⟩
  · intro s v h h1 h2
    rw [normalizeCount, if_neg h1, if_neg h2]
    exact h
  · intro s h h1 h2
    rw [normalizeCount, if_neg h1, if_neg h2]
    exact h

/-- Witness for C5's generic integer-literal clause. -/
theorem claim_C5_witness : normalizeCount "42" = .ok 42 :=
  claim_C5.2.2.2.2.1 "42" 42 (by decide) (by decide) (by decide)

/-- C6: `price_conversion` computes, for every input string, exactly the
reference algorithm of §4.2 (substring before the first dot, then keep only
ASCII digits), with the three example values from the specification. -/
theorem claim_C6 :
    (∀ s, price_conversion s = priceNormSpec s) ∧
    price_conversion samplePrice = "5990" ∧
    price_conversion "12.5" = "12" ∧
    price_conversion "руб." = "" :=
  ⟨price_conversion_eq_spec, by decide, by decide, by decide⟩

/-- C7 counterexample: on a matched feed record whose price text has no
digits before the first dot, the seller engine does not raise — it emits the
price entry with the empty price string. -/
theorem claim_C7_counterexample :
    Seller.create_prices [⟨"a", "5", "руб."⟩] ["a"] =
      [⟨"UNKNOWN", "RUB", "a", "0", ""⟩] ∧
    (⟨"UNKNOWN", "RUB", "a", "0", ""⟩ : Seller.PriceEntry).price = "" := by
  constructor
  · decide
  · rfl

/-- C7 (amended): when price normalization yields an empty string for a
matched record, the market engine raises the per-record error (`int("")`
fails with `ValueError`), but the seller engine silently emits the price
entry carrying the empty price string. -/
theorem claim_C7 (F : List FeedRecord) (S : List String) (w : FeedRecord)
    (hw : w ∈ F) (hin : w.code ∈ S)
    (hempty : price_conversion w.price = "") :
    ((⟨"UNKNOWN", "RUB", w.code, "0", ""⟩ : Seller.PriceEntry) ∈
      Seller.create_prices F S) ∧
    Market.create_prices F S = .error .valueError := by
  refine ⟨?_, Market.create_prices_error F S w hw hin hempty⟩
  have hm := Seller.create_prices_mem F S w hw hin
  rwa [hempty] at hm

/-- Witness for C7. -/
theorem claim_C7_witness :
    ((⟨"UNKNOWN", "RUB", "b", "0", ""⟩ : Seller.PriceEntry) ∈
      Seller.create_prices [⟨"b", "5", "xx"⟩] ["b"]) ∧
    Market.create_prices [⟨"b", "5", "xx"⟩] ["b"] = .error .valueError :=
  claim_C7 [⟨"b", "5", "xx"⟩] ["b"] ⟨"b", "5", "xx"⟩ (by decide) (by decide)
    (by decide)

/-- C8: for every list and every positive chunk size, `divide` yields chunks
each of length at most the chunk size whose in-order concatenation is the
input, with the specification's two examples. -/
theorem claim_C8 :
    (∀ (α : Type) (l : List α) (n : Int), 0 < n →
      ∃ cs, Seller.divide l n = .ok cs ∧ cs.flatten = l ∧
        ∀ c ∈ cs, (c.length : Int) ≤ n) ∧
    Seller.divide [1, 2, 3, 4, 5] 2 = .ok [[1, 2], [3, 4], [5]] ∧
    Seller.divide ([] : List Nat) 2 = .ok [] := by
  refine ⟨fun α l n hn => ?_, ?_, ?_⟩
  · obtain ⟨h1, h2, h3⟩ := Seller.divide_pos_spec l n hn
    exact ⟨_, h1, h2, h3⟩
  · simp [Seller.divide, Seller.chunks.eq_def]
  · simp [Seller.divide, Seller.chunks.eq_def]

/-- Witness for C8's universal clause. -/
theorem claim_C8_witness :
    ∃ cs, Seller.divide [(7 : Nat)] 3 = .ok cs ∧ cs.flatten = [7] ∧
      ∀ c ∈ cs, (c.length : Int) ≤ 3 :=
  claim_C8.1 Nat [7] 3 (by decide)

/-- C9 counterexample: `divide` with chunk size -1 does not fail at all — it
silently yields no chunks. -/
theorem claim_C9_counterexample :
    Seller.divide [(1 : Nat)] (-1) = .ok [] ∧
    (Except.ok ([] : List (List Nat)) : Except PyError (List (List Nat))) ≠
      .error .valueError := by
  constructor
  · rfl
  · decide

/-- C9 (amended): for chunk size 0, `divide` raises the generic `ValueError`
coming from `range` (not a dedicated `InvalidArgument`), and for any negative
chunk size it silently yields no chunks instead of failing. -/
theorem claim_C9 (α : Type) (l : List α) (n : Int) :
    (n = 0 → Seller.divide l n = .error .valueError) ∧
    (n < 0 → Seller.divide l n = .ok []) := by
  constructor
  · intro h
    rw [Seller.divide, if_pos h]
  · intro h
    rw [Seller.divide, if_neg (by omega), if_pos h]

/-- Witness for C9. -/
theorem claim_C9_witness :
    Seller.divide [(2 : Nat)] 0 = .error .valueError ∧
    Seller.divide [(2 : Nat)] (-3) = .ok [] :=
  ⟨(claim_C9 Nat [2] 0).1 rfl, (claim_C9 Nat [2] (-3)).2 (by decide)⟩

/-- C10: each channel submits its updates in chunks of exactly its stated
limit — seller stocks 100, seller prices 900 (whole-catalog path) and 1000
(standalone path), market stocks 2000, market prices 500 — every submitted
chunk is within the limit and the chunks concatenate to the full batch; and a
market stock batch of 2500 entries is submitted as exactly two calls of sizes
2000 and 500, in that order. -/
theorem claim_C10 :
    (∀ s : List Seller.StockEntry, ∃ cs, Seller.uploadStocksCalls s = .ok cs ∧
      cs.flatten = s ∧ ∀ c ∈ cs, c.length ≤ 100) ∧
    (∀ p : List Seller.PriceEntry, ∃ cs, Seller.mainPriceCalls p = .ok cs ∧
      cs.flatten = p ∧ ∀ c ∈ cs, c.length ≤ 900) ∧
    (∀ p : List Seller.PriceEntry, ∃ cs, Seller.uploadPricesCalls p = .ok cs ∧
      cs.flatten = p ∧ ∀ c ∈ cs, c.length ≤ 1000) ∧
    (∀ s : List Market.StockEntry, ∃ cs, Market.uploadStocksCalls s = .ok cs ∧
      cs.flatten = s ∧ ∀ c ∈ cs, c.length ≤ 2000) ∧
    (∀ p : List Market.PriceEntry, ∃ cs, Market.uploadPricesCalls p = .ok cs ∧
      cs.flatten = p ∧ ∀ c ∈ cs, c.length ≤ 500) ∧
    (∀ s : List Market.StockEntry, s.length = 2500 →
      Market.uploadStocksCalls s = .ok [s.take 2000, s.drop 2000] ∧
      (s.take 2000).length = 2000 ∧ (s.drop 2000).length = 500 ∧
      s.take 2000 ++ s.drop 2000 = s) := by
  have hgen : ∀ (α : Type) (l : List α) (k : Int), 0 < k →
      ∃ cs, Seller.divide l k = .ok cs ∧ cs.flatten = l ∧
        ∀ c ∈ cs, c.length ≤ k.toNat := by
    intro α l k hk
    obtain ⟨h1, h2, h3⟩ := Seller.divide_pos_spec l k hk
    refine ⟨_, h1, h2, fun c hc => ?_⟩
    have := h3 c hc
    omega
  refine ⟨fun s => ?_, fun p => ?_, fun p => ?_, fun s => ?_, fun p => ?_,
    fun s hs => ?_⟩
  · obtain ⟨cs, h1, h2, h3⟩ := hgen _ s 100 (by omega)
    exact ⟨cs, h1, h2, h3⟩
  · obtain ⟨cs, h1, h2, h3⟩ := hgen _ p 900 (by omega)
    exact ⟨cs, h1, h2, h3⟩
  · obtain ⟨cs, h1, h2, h3⟩ := hgen _ p 1000 (by omega)
    exact ⟨cs, h1, h2, h3⟩
  · obtain ⟨cs, h1, h2, h3⟩ := hgen _ s 2000 (by omega)
    exact ⟨cs, h1, h2, h3⟩
  · obtain ⟨cs, h1, h2, h3⟩ := hgen _ p 500 (by omega)
    exact ⟨cs, h1, h2, h3⟩
  · have hcall : Market.uploadStocksCalls s = .ok (Seller.chunks s 2000) := by
      rw [Market.uploadStocksCalls, Seller.divide, if_neg (by omega),
        if_neg (by omega)]
      rfl
    refine ⟨?_, ?_, ?_, List.take_append_drop 2000 s⟩
    · rw [hcall, Seller.chunks_2500 s hs]
    · rw [List.length_take, hs]
      exact min_eq_left (by omega)
    · rw [List.length_drop, hs]

/-- Witness for C10's batch-sizing scenario. -/
theorem claim_C10_witness :
    Market.uploadStocksCalls stocks2500 =
      .ok [stocks2500.take 2000, stocks2500.drop 2000] ∧
    (stocks2500.take 2000).length = 2000 ∧
    (stocks2500.drop 2000).length = 500 ∧
    stocks2500.take 2000 ++ stocks2500.drop 2000 = stocks2500 :=
  claim_C10.2.2.2.2.2 stocks2500 (by simp [stocks2500])
